import Mathlib

/-!
# concurrent-summation: a shallow embedding of `main.c`

The program sums the first `N` natural numbers on one or several worker
threads and prints the closed-form value next to the computed one.

Conventions of the embedding.

* `u64` values are natural numbers below `U64_MOD = 2^64`; every `u64`
  operation that can wrap carries an explicit `% U64_MOD`.
* The global `total` is threaded through explicitly: a function that reads or
  writes it takes the current value and returns the new one.
* A `Range *` argument is passed as the pointed-to `Range` value, and a
  function that receives such a pointer returns the value the object holds
  when the function is done.
* Loops are run with fuel; `none` means the fuel ran out.
* `exit(1)` is `Except.error 1`.
* The worker threads of one scheme are run one after the other in spawn
  order; each worker's update of `total` happens under `total_mutex`.
-/

namespace ConcurrentSummation

/-- Modulus of `unsigned long long` (`u64`). -/
def U64_MOD : Nat := 18446744073709551616

/-- Largest `long long`. -/
def LLONG_MAX : Int := 9223372036854775807

/-- Smallest `long long`. -/
def LLONG_MIN : Int := -9223372036854775808

deriving instance DecidableEq for Except

/-- Half open interval `[begin, end)`, the `Range` struct of the source; the
field `end` is written `end_`. -/
structure Range where
  begin : Nat
  end_ : Nat
  deriving DecidableEq, Repr

/-- The `for` loop of `sum_over`: `for (u64 i = range->begin; i < range->end; ++i) acc += i;`.
One unit of fuel pays for one execution of the loop body.  The loop reads
`range->end` before every iteration and hands the `Range` object back. -/
def sum_over_loop : Nat → Range → Nat → Nat → Option (Nat × Range)
  | 0, range, i, acc =>
    if i < range.end_ then none else some (acc, range)
  | fuel + 1, range, i, acc =>
    if i < range.end_ then
      sum_over_loop fuel range ((i + 1) % U64_MOD) ((acc + i) % U64_MOD)
    else some (acc, range)

/-- Function `sum_over` of the source: `u64 sum_over(Range *range)`.  Returns the accumulator together with the
`Range` object as it is left behind. -/
def sum_over (range : Range) : Option (Nat × Range) :=
  sum_over_loop U64_MOD range range.begin 0

/-- Thread function `worker` of the source, as a step on the shared `total`.  It computes
`sum_over(range)`, adds the result to `total` under the mutex, and then
executes `*(int *) arg = 0`, which stores a 32-bit zero at the address of the
`Range`: on the little-endian 64-bit targets the program is built for these
are the low four bytes of `begin`.  Returns the new `total` and the `Range`
object as the worker leaves it. -/
def worker (total : Nat) (arg : Range) : Option (Nat × Range) :=
  match sum_over arg with
  | none => none
  | some (acc, range) =>
    some ((total + acc) % U64_MOD,
      { range with begin := range.begin - range.begin % 4294967296 })

/-- Scheme `single_thread` of the source: one worker over `[0, N+1)`; returns `total`. -/
def single_thread (total N : Nat) : Option Nat :=
  let range : Range := { begin := 0, end_ := (N + 1) % U64_MOD }
  match worker total range with
  | none => none
  | some (total', _) => some total'

/-- Function `subinterval` of the source: the `i`th of the `n` subintervals of `*interval`, the value
stored in `*out`.  The `int` arguments `n` and `i` are taken non-negative
(the callers pass `0 ≤ i < n`), so their conversion to `u64` keeps the value;
the comparison `i == n-1` is done on integers. -/
def subinterval (interval : Range) (n i : Nat) : Range :=
  let delta := ((interval.end_ + U64_MOD - interval.begin) % U64_MOD) / n
  let remainder := ((interval.end_ + U64_MOD - interval.begin) % U64_MOD) % n
  let out_begin := (interval.begin + (delta * i) % U64_MOD) % U64_MOD
  let out_end :=
    ((out_begin + delta) % U64_MOD
      + (if (i : Int) = (n : Int) - 1 then remainder else 0)) % U64_MOD
  { begin := out_begin, end_ := out_end }

/-- The array `range[n_cpus]` that the first loop of `cpu_share` fills. -/
def cpu_share_ranges (n_cpus N : Nat) : List Range :=
  let interval : Range := { begin := 1, end_ := (N + 1) % U64_MOD }
  (List.range n_cpus).map (fun i => subinterval interval n_cpus i)

/-- The workers spawned on a list of ranges, run one after the other, each
adding its partial sum to `total`. -/
def run_workers (total : Nat) : List Range → Option Nat
  | [] => some total
  | r :: rs =>
    match worker total r with
    | none => none
    | some (total', _) => run_workers total' rs

/-- Scheme `cpu_share` of the source, with the result of `get_nprocs()` as the parameter
`n_cpus`: one worker per subinterval of `[1, N+1)`; returns `total`. -/
def cpu_share (n_cpus total N : Nat) : Option Nat :=
  run_workers total (cpu_share_ranges n_cpus N)

/-- The function pointers stored in the registry. -/
inductive ThreadingScheme where
  | single_thread
  | cpu_share
  deriving DecidableEq, Repr

/-- Calling a scheme through its pointer: `scheme(N)`. -/
def ThreadingScheme.call (scheme : ThreadingScheme) (n_cpus total N : Nat) : Option Nat :=
  match scheme with
  | ThreadingScheme.single_thread => ConcurrentSummation.single_thread total N
  | ThreadingScheme.cpu_share => ConcurrentSummation.cpu_share n_cpus total N

/-- One row of the table `threading_schemes`. -/
structure SchemeEntry where
  name : String
  scheme : ThreadingScheme
  deriving DecidableEq, Repr

/-- The table `threading_schemes` of the source. -/
def threading_schemes : List SchemeEntry :=
  [{ name := "single", scheme := ThreadingScheme.single_thread },
   { name := "cpus", scheme := ThreadingScheme.cpu_share }]

/-- C library `isspace` in the "C" locale: space, `\t`, `\n`, `\v`, `\f`, `\r`. -/
def isspace (c : Char) : Bool :=
  c.toNat = 32 || (9 ≤ c.toNat && c.toNat ≤ 13)

/-- C library `isdigit`. -/
def isdigit (c : Char) : Bool :=
  48 ≤ c.toNat && c.toNat ≤ 57

/-- The digit loop of `atoll`: consumes decimal digits from the front and
stops at the first character that is not one. -/
def atoll_digits : List Char → Nat → Nat
  | [], acc => acc
  | c :: cs, acc =>
    if isdigit c then atoll_digits cs (acc * 10 + (c.toNat - 48)) else acc

/-- C library `atoll` (`strtoll(nptr, NULL, 10)`): skips leading white space,
takes an optional sign and then the longest run of decimal digits; the value
is 0 when there is no digit, and is clamped to the range of `long long`. -/
def atoll (nptr : String) : Int :=
  match nptr.toList.dropWhile isspace with
  | [] => 0
  | c :: cs =>
    if c = '-' then max LLONG_MIN (-(atoll_digits cs 0 : Int))
    else if c = '+' then min LLONG_MAX (atoll_digits cs 0 : Int)
    else min LLONG_MAX (atoll_digits (c :: cs) 0 : Int)

/-- Function `get_bound_from_args` of the source, with `argc = argv.length`. -/
def get_bound_from_args (argv : List String) : Except Nat Nat :=
  if argv.length < 2 then Except.error 1
  else
    let n : Int := atoll (argv.getD 1 "")
    if n ≤ 0 then Except.error 1
    else Except.ok (n % (U64_MOD : Int)).toNat

/-- The inner loop of `get_threading_scheme`: the first table row whose name
is `arg`, or the null pointer. -/
def find_scheme : List SchemeEntry → String → Option ThreadingScheme
  | [], _ => none
  | entry :: rest, arg =>
    if entry.name = arg then some entry.scheme else find_scheme rest arg

/-- The outer loop of `get_threading_scheme`, on the arguments from index `i` on. -/
def get_threading_scheme_loop : List String → Except Nat ThreadingScheme
  | [] => Except.ok (threading_schemes.get ⟨0, by decide⟩).scheme
  | arg :: rest =>
    if arg = "--method" ∨ arg = "-m" then
      match rest with
      | value :: _ =>
        match find_scheme threading_schemes value with
        | some scheme => Except.ok scheme
        | none => Except.error 1
      | [] => Except.error 1
    else get_threading_scheme_loop rest

/-- Function `get_threading_scheme` of the source: the scan starts at `argv[1]`. -/
def get_threading_scheme (argv : List String) : Except Nat ThreadingScheme :=
  get_threading_scheme_loop (argv.drop 1)

/-- The value `expected` of `main`: `N * (N + 1) / 2` in `u64`. -/
def expected (N : Nat) : Nat :=
  ((N * ((N + 1) % U64_MOD)) % U64_MOD) / 2

/-- What `main` prints: the two `u64` values. -/
structure Report where
  expected : Nat
  calculated : Nat
  deriving DecidableEq, Repr

/-- Function `main` of the source, with the CPU count as a parameter and `total` starting at 0. -/
def main (n_cpus : Nat) (argv : List String) : Except Nat (Option Report) :=
  match get_bound_from_args argv with
  | Except.error status => Except.error status
  | Except.ok N =>
    match get_threading_scheme argv with
    | Except.error status => Except.error status
    | Except.ok scheme =>
      Except.ok ((scheme.call n_cpus 0 N).map
        (fun calculated => { expected := expected N, calculated := calculated }))

/-- The sum of the integers `i` with `a ≤ i < b`. -/
def rangeSum (a b : Nat) : Nat := ∑ i ∈ Finset.Ico a b, i

/-- The number written by a string of decimal digits. -/
def digitsValue (ds : List Char) : Nat :=
  ds.foldl (fun acc d => acc * 10 + (d.toNat - 48)) 0

/-- A decimal numeral: an optional sign followed by one or more decimal digits
and nothing else; the value is the integer it denotes, `none` when the string
is not a decimal numeral. -/
def decimalValue (s : String) : Option Int :=
  match s.toList with
  | [] => none
  | c :: cs =>
    if c = '-' then
      (if cs ≠ [] ∧ cs.all isdigit then some (-(digitsValue cs : Int)) else none)
    else if c = '+' then
      (if cs ≠ [] ∧ cs.all isdigit then some (digitsValue cs : Int) else none)
    else
      (if (c :: cs).all isdigit then some (digitsValue (c :: cs) : Int) else none)

/-- The decimal numeral a string starts with: after optional white space and an
optional sign, the longest run of decimal digits, when there is at least one;
whatever follows the digits is not looked at. -/
def leadingNumeral (s : String) : Option Int :=
  match s.toList.dropWhile isspace with
  | [] => none
  | c :: cs =>
    if c = '-' then
      (if cs.takeWhile isdigit ≠ [] then
        some (-(digitsValue (cs.takeWhile isdigit) : Int)) else none)
    else if c = '+' then
      (if cs.takeWhile isdigit ≠ [] then
        some (digitsValue (cs.takeWhile isdigit) : Int) else none)
    else
      (if (c :: cs).takeWhile isdigit ≠ [] then
        some (digitsValue ((c :: cs).takeWhile isdigit) : Int) else none)

/-- The loop of `sum_over` once more, with two observations added to the
result: the number of times the body has run (`iterations`, counted from the
value passed in) and the value of the counter `i` when the loop stops. -/
def sum_over_loop_count : Nat → Range → Nat → Nat → Nat → Option (Nat × Nat × Nat)
  | 0, range, i, acc, iterations =>
    if i < range.end_ then none else some (iterations, i, acc)
  | fuel + 1, range, i, acc, iterations =>
    if i < range.end_ then
      sum_over_loop_count fuel range ((i + 1) % U64_MOD) ((acc + i) % U64_MOD) (iterations + 1)
    else some (iterations, i, acc)

/-- The local `delta` of `subinterval`. -/
def subinterval_delta (interval : Range) (n : Nat) : Nat :=
  ((interval.end_ + U64_MOD - interval.begin) % U64_MOD) / n

/-- The local `remainder` of `subinterval`. -/
def subinterval_remainder (interval : Range) (n : Nat) : Nat :=
  ((interval.end_ + U64_MOD - interval.begin) % U64_MOD) % n

/-- The local `range` of `single_thread`: `{.begin=0, .end=N+1}`. -/
def single_thread_range (N : Nat) : Range :=
  { begin := 0, end_ := (N + 1) % U64_MOD }

/-- The local `interval` of `cpu_share`: `{.begin=1, .end=N+1}`. -/
def cpu_share_interval (N : Nat) : Range :=
  { begin := 1, end_ := (N + 1) % U64_MOD }

/-! ## Arithmetic of `rangeSum` -/

theorem rangeSum_empty {a b : Nat} (h : b ≤ a) : rangeSum a b = 0 := by
  unfold rangeSum
  rw [Finset.Ico_eq_empty_of_le h, Finset.sum_empty]

theorem rangeSum_succ_bot {a b : Nat} (h : a < b) :
    rangeSum a b = a + rangeSum (a + 1) b := by
  unfold rangeSum
  exact Finset.sum_eq_sum_Ico_succ_bot h _

theorem rangeSum_add {a b c : Nat} (hab : a ≤ b) (hbc : b ≤ c) :
    rangeSum a b + rangeSum b c = rangeSum a c := by
  unfold rangeSum
  exact Finset.sum_Ico_consecutive _ hab hbc

theorem rangeSum_zero_one (m : Nat) : rangeSum 0 (m + 1) = rangeSum 1 (m + 1) := by
  rw [rangeSum_succ_bot (Nat.succ_pos m)]
  simp

theorem rangeSum_gauss (N : Nat) : rangeSum 1 (N + 1) = N * (N + 1) / 2 := by
  rw [← rangeSum_zero_one]
  have h : rangeSum 0 (N + 1) * 2 = (N + 1) * (N + 1 - 1) := by
    unfold rangeSum
    rw [← Finset.range_eq_Ico]
    exact Finset.sum_range_id_mul_two (N + 1)
  have h2 : (N + 1) * (N + 1 - 1) = N * (N + 1) := by
    rw [Nat.add_sub_cancel, Nat.mul_comm]
  omega

theorem rangeSum_Icc (N : Nat) : rangeSum 1 (N + 1) = ∑ i ∈ Finset.Icc 1 N, i := by
  unfold rangeSum
  congr 1

/-! ## The summation loop -/

theorem sum_over_loop_eq (fuel : Nat) (range : Range) :
    ∀ (i acc : Nat), range.end_ < U64_MOD → range.end_ - i ≤ fuel → acc < U64_MOD →
      sum_over_loop fuel range i acc
        = some ((acc + rangeSum i range.end_) % U64_MOD, range) := by
  induction fuel with
  | zero =>
    intro i acc _ hfuel hacc
    have hle : range.end_ ≤ i := by omega
    simp [sum_over_loop, Nat.not_lt.mpr hle, rangeSum_empty hle, Nat.mod_eq_of_lt hacc]
  | succ fuel ih =>
    intro i acc hend hfuel hacc
    by_cases hlt : i < range.end_
    · have hi : (i + 1) % U64_MOD = i + 1 := Nat.mod_eq_of_lt (by omega)
      have hacc2 : (acc + i) % U64_MOD < U64_MOD := Nat.mod_lt _ (by decide)
      rw [sum_over_loop, if_pos hlt, hi, ih (i + 1) _ hend (by omega) hacc2,
        rangeSum_succ_bot hlt, Nat.mod_add_mod, Nat.add_assoc]
    · have hle : range.end_ ≤ i := Nat.le_of_not_lt hlt
      simp [sum_over_loop, hlt, rangeSum_empty hle, Nat.mod_eq_of_lt hacc]

theorem sum_over_eq (range : Range) (hend : range.end_ < U64_MOD) :
    sum_over range = some (rangeSum range.begin range.end_ % U64_MOD, range) := by
  unfold sum_over
  rw [sum_over_loop_eq U64_MOD range range.begin 0 hend (by omega) (by decide), Nat.zero_add]

theorem worker_eq (total : Nat) (arg : Range) (hend : arg.end_ < U64_MOD) :
    worker total arg
      = some ((total + rangeSum arg.begin arg.end_) % U64_MOD,
          { arg with begin := arg.begin - arg.begin % 4294967296 }) := by
  unfold worker
  rw [sum_over_eq arg hend]
  simp

theorem run_workers_eq (ranges : List Range) :
    ∀ (total : Nat), total < U64_MOD → (∀ r ∈ ranges, r.end_ < U64_MOD) →
      run_workers total ranges
        = some ((total + (ranges.map (fun r => rangeSum r.begin r.end_)).sum) % U64_MOD) := by
  induction ranges with
  | nil =>
    intro total ht _
    simp [run_workers, Nat.mod_eq_of_lt ht]
  | cons r rs ih =>
    intro total _ h
    have hr : r.end_ < U64_MOD := h r (List.mem_cons_self r rs)
    have hrs : ∀ x ∈ rs, x.end_ < U64_MOD := fun x hx => h x (List.mem_cons_of_mem r hx)
    rw [run_workers, worker_eq total r hr]
    simp only [ih _ (Nat.mod_lt _ (by decide)) hrs, List.map_cons, List.sum_cons,
      Nat.mod_add_mod, Nat.add_assoc]

theorem single_thread_eq (total N : Nat) (hN : N + 1 < U64_MOD) :
    single_thread total N = some ((total + rangeSum 1 (N + 1)) % U64_MOD) := by
  unfold single_thread
  simp only [Nat.mod_eq_of_lt hN]
  rw [worker_eq total _ hN, rangeSum_zero_one]

/-! ## The partitioner -/

theorem subinterval_eq (a b n i : Nat) (hab : a ≤ b) (hb : b < U64_MOD) (hi : i < n) :
    subinterval { begin := a, end_ := b } n i
      = { begin := a + (b - a) / n * i,
          end_ := a + (b - a) / n * i + (b - a) / n
            + (if i + 1 = n then (b - a) % n else 0) } := by
  have hL : (b + U64_MOD - a) % U64_MOD = b - a := by
    unfold U64_MOD at *
    omega
  have h1 : (b - a) / n * i + (b - a) / n ≤ (b - a) / n * n := by
    have h := Nat.mul_le_mul_left ((b - a) / n) (Nat.succ_le_of_lt hi)
    rwa [Nat.mul_succ] at h
  have h3 : (b - a) / n * n + (b - a) % n = b - a := by
    rw [Nat.mul_comm]
    exact Nat.div_add_mod _ _
  unfold subinterval
  simp only [hL]
  generalize (b - a) / n * i = di at *
  generalize (b - a) / n * n = dn at *
  generalize (b - a) / n = d at *
  generalize (b - a) % n = r at *
  unfold U64_MOD at *
  split_ifs <;> first
    | omega
    | (simp only [Range.mk.injEq]; omega)

theorem rangeSum_steps (a d : Nat) :
    ∀ k : Nat, ((List.range k).map (fun i => rangeSum (a + d * i) (a + d * i + d))).sum
      = rangeSum a (a + d * k) := by
  intro k
  induction k with
  | zero => simp [rangeSum_empty]
  | succ k ih =>
    rw [List.range_succ, List.map_append, List.sum_append, ih]
    simp only [List.map_cons, List.map_nil, List.sum_cons, List.sum_nil, Nat.add_zero]
    rw [Nat.mul_succ, ← Nat.add_assoc]
    exact rangeSum_add (Nat.le_add_right _ _) (Nat.le_add_right _ _)

theorem subinterval_sum (a b n : Nat) (hab : a ≤ b) (hb : b < U64_MOD) (hn : 1 ≤ n) :
    ((List.range n).map (fun i =>
        rangeSum (subinterval { begin := a, end_ := b } n i).begin
          (subinterval { begin := a, end_ := b } n i).end_)).sum
      = rangeSum a b := by
  obtain ⟨m, rfl⟩ : ∃ m, n = m + 1 := ⟨n - 1, by omega⟩
  have hpre : (List.range m).map (fun i =>
        rangeSum (subinterval { begin := a, end_ := b } (m + 1) i).begin
          (subinterval { begin := a, end_ := b } (m + 1) i).end_)
      = (List.range m).map (fun i =>
        rangeSum (a + (b - a) / (m + 1) * i) (a + (b - a) / (m + 1) * i + (b - a) / (m + 1))) := by
    apply List.map_congr_left
    intro i hi
    have him : i < m := List.mem_range.mp hi
    rw [subinterval_eq a b (m + 1) i hab hb (by omega)]
    have hne : ¬ (i + 1 = m + 1) := by omega
    simp only [if_neg hne, Nat.add_zero]
  have h3 : (b - a) / (m + 1) * (m + 1) + (b - a) % (m + 1) = b - a := by
    rw [Nat.mul_comm]
    exact Nat.div_add_mod _ _
  have hlast : a + (b - a) / (m + 1) * m + (b - a) / (m + 1) + (b - a) % (m + 1) = b := by
    rw [Nat.mul_succ] at h3
    omega
  have hle : a + (b - a) / (m + 1) * m ≤ b := by
    generalize (b - a) / (m + 1) * m = x at hlast ⊢
    generalize (b - a) / (m + 1) = y at hlast
    generalize (b - a) % (m + 1) = z at hlast
    omega
  rw [List.range_succ, List.map_append, List.sum_append, hpre, rangeSum_steps]
  simp only [List.map_cons, List.map_nil, List.sum_cons, List.sum_nil, Nat.add_zero]
  rw [subinterval_eq a b (m + 1) m hab hb (by omega)]
  simp only [if_true, hlast]
  exact rangeSum_add (Nat.le_add_right _ _) hle

theorem cpu_share_eq (n_cpus total N : Nat) (hn : 1 ≤ n_cpus) (ht : total < U64_MOD)
    (hN : N + 1 < U64_MOD) :
    cpu_share n_cpus total N = some ((total + rangeSum 1 (N + 1)) % U64_MOD) := by
  unfold cpu_share cpu_share_ranges
  simp only [Nat.mod_eq_of_lt hN]
  rw [run_workers_eq _ total ht]
  · rw [List.map_map]
    have h := subinterval_sum 1 (N + 1) n_cpus (by omega) hN hn
    simp only [Function.comp_def]
    rw [h]
  · intro r hr
    obtain ⟨i, _, rfl⟩ := List.mem_map.mp hr
    unfold subinterval
    exact Nat.mod_lt _ (by decide)

theorem subinterval_begin (a b n i : Nat) (hab : a ≤ b) (hb : b < U64_MOD) (hi : i < n) :
    (subinterval { begin := a, end_ := b } n i).begin = a + (b - a) / n * i := by
  rw [subinterval_eq a b n i hab hb hi]

theorem subinterval_end_inner (a b n i : Nat) (hab : a ≤ b) (hb : b < U64_MOD)
    (hi : i + 1 < n) :
    (subinterval { begin := a, end_ := b } n i).end_ = a + (b - a) / n * (i + 1) := by
  rw [subinterval_eq a b n i hab hb (by omega)]
  have hne : ¬ (i + 1 = n) := by omega
  simp only [if_neg hne, Nat.add_zero, Nat.mul_succ, Nat.add_assoc]

theorem subinterval_end_last (a b n : Nat) (hab : a ≤ b) (hb : b < U64_MOD) (hn : 1 ≤ n) :
    (subinterval { begin := a, end_ := b } n (n - 1)).end_ = b := by
  rw [subinterval_eq a b n (n - 1) hab hb (by omega)]
  have he : n - 1 + 1 = n := by omega
  have h3 : (b - a) / n * (n - 1 + 1) + (b - a) % n = b - a := by
    rw [he, Nat.mul_comm]
    exact Nat.div_add_mod _ _
  rw [Nat.mul_succ] at h3
  simp only [he, if_true]
  generalize (b - a) / n * (n - 1) = x at h3 ⊢
  generalize (b - a) / n = y at h3 ⊢
  generalize (b - a) % n = z at h3 ⊢
  omega

theorem subinterval_begin_mono (a b n i j : Nat) (hab : a ≤ b) (hb : b < U64_MOD)
    (hij : i ≤ j) (hj : j < n) :
    (subinterval { begin := a, end_ := b } n i).begin
      ≤ (subinterval { begin := a, end_ := b } n j).begin := by
  rw [subinterval_begin a b n i hab hb (by omega), subinterval_begin a b n j hab hb hj]
  exact Nat.add_le_add_left (Nat.mul_le_mul_left _ hij) a

theorem subinterval_end_le_begin (a b n i j : Nat) (hab : a ≤ b) (hb : b < U64_MOD)
    (hij : i < j) (hj : j < n) :
    (subinterval { begin := a, end_ := b } n i).end_
      ≤ (subinterval { begin := a, end_ := b } n j).begin := by
  rw [subinterval_end_inner a b n i hab hb (by omega), subinterval_begin a b n j hab hb hj]
  exact Nat.add_le_add_left (Nat.mul_le_mul_left _ hij) a

theorem subinterval_begin_le_end (a b n i : Nat) (hab : a ≤ b) (hb : b < U64_MOD)
    (hi : i < n) :
    (subinterval { begin := a, end_ := b } n i).begin
      ≤ (subinterval { begin := a, end_ := b } n i).end_ := by
  rw [subinterval_eq a b n i hab hb hi]
  simp only [Nat.add_assoc]
  exact Nat.add_le_add_left (Nat.le_add_right _ _) a

theorem subinterval_end_le (a b n i : Nat) (hab : a ≤ b) (hb : b < U64_MOD) (hi : i < n) :
    (subinterval { begin := a, end_ := b } n i).end_ ≤ b := by
  by_cases hlast : i + 1 = n
  · have hi2 : i = n - 1 := by omega
    rw [hi2, subinterval_end_last a b n hab hb (by omega)]
  · have h1 : (subinterval { begin := a, end_ := b } n i).end_
        ≤ (subinterval { begin := a, end_ := b } n (n - 1)).begin :=
      subinterval_end_le_begin a b n i (n - 1) hab hb (by omega) (by omega)
    have h2 := subinterval_begin_le_end a b n (n - 1) hab hb (by omega)
    rw [subinterval_end_last a b n hab hb (by omega)] at h2
    exact Nat.le_trans h1 h2

theorem subinterval_le_begin (a b n i : Nat) (hab : a ≤ b) (hb : b < U64_MOD) (hi : i < n) :
    a ≤ (subinterval { begin := a, end_ := b } n i).begin := by
  rw [subinterval_begin a b n i hab hb hi]
  exact Nat.le_add_right _ _

/-- A point between the first and the last value of a sequence lies in one of
its steps. -/
theorem exists_step (f : Nat → Nat) (x : Nat) :
    ∀ n : Nat, f 0 ≤ x → x < f n → ∃ i, i < n ∧ f i ≤ x ∧ x < f (i + 1) := by
  intro n
  induction n with
  | zero =>
    intro h0 hn
    omega
  | succ n ih =>
    intro h0 hn
    by_cases hx : x < f n
    · obtain ⟨i, hi, h1, h2⟩ := ih h0 hx
      exact ⟨i, by omega, h1, h2⟩
    · exact ⟨n, by omega, by omega, hn⟩

theorem subinterval_cover (a b n x : Nat) (hab : a ≤ b) (hb : b < U64_MOD) (hn : 1 ≤ n)
    (hax : a ≤ x) (hxb : x < b) :
    ∃ i, i < n ∧ (subinterval { begin := a, end_ := b } n i).begin ≤ x
      ∧ x < (subinterval { begin := a, end_ := b } n i).end_ := by
  have h0 : (fun k => if k = n then b else a + (b - a) / n * k) 0 ≤ x := by
    have hne : ¬ (0 = n) := by omega
    simp only [if_neg hne, Nat.mul_zero, Nat.add_zero]
    exact hax
  have hlast : x < (fun k => if k = n then b else a + (b - a) / n * k) n := by
    simp only [if_true]
    exact hxb
  obtain ⟨i, hi, h1, h2⟩ :=
    exists_step (fun k => if k = n then b else a + (b - a) / n * k) x n h0 hlast
  refine ⟨i, hi, ?_, ?_⟩
  · rw [subinterval_begin a b n i hab hb hi]
    have hne : ¬ (i = n) := by omega
    simp only [if_neg hne] at h1
    exact h1
  · by_cases hl : i + 1 = n
    · have hi2 : i = n - 1 := by omega
      rw [hi2, subinterval_end_last a b n hab hb hn]
      exact hxb
    · rw [subinterval_end_inner a b n i hab hb (by omega)]
      simp only [if_neg hl] at h2
      exact h2

/-- For `N < 2^32` the product `N * (N + 1)` fits in a `u64`, and `expected`
is the closed form of the sum. -/
theorem expected_eq_of_lt (N : Nat) (hN : N < 4294967296) :
    expected N = rangeSum 1 (N + 1) % U64_MOD := by
  have hmul : N * (N + 1) ≤ 4294967295 * 4294967296 :=
    Nat.mul_le_mul (by omega) (by omega)
  have hlt : N * (N + 1) < U64_MOD := by
    unfold U64_MOD
    omega
  have h1 : (N + 1) % U64_MOD = N + 1 := Nat.mod_eq_of_lt (by unfold U64_MOD; omega)
  unfold expected
  rw [h1, Nat.mod_eq_of_lt hlt, rangeSum_gauss]
  exact (Nat.mod_eq_of_lt (Nat.lt_of_le_of_lt (Nat.div_le_self _ _) hlt)).symm

/-- Below `2^32` the two printed values agree: each scheme returns `expected N`. -/
theorem calculated_eq_expected_of_lt (N n_cpus : Nat) (hN : N < 4294967296)
    (hn : 1 ≤ n_cpus) :
    single_thread 0 N = some (expected N) ∧ cpu_share n_cpus 0 N = some (expected N) := by
  have hN1 : N + 1 < U64_MOD := by
    unfold U64_MOD
    omega
  rw [single_thread_eq 0 N hN1, cpu_share_eq n_cpus 0 N hn (by decide) hN1,
    expected_eq_of_lt N hN, Nat.zero_add]
  exact ⟨rfl, rfl⟩

/-! ## The claims -/

/-- C1 (evaluation at the failing input): for `N = 2^32` the schemes return the
sum `1 + ... + N = 9223372039002259456`, which fits in a `u64`, while the value
`expected` of `main` is `2147483648`, because the product `N * (N + 1)` wraps
before it is halved; the run `sum 4294967296` prints the two different values. -/
theorem C1_expected_wraps_at_two_pow_32 :
    expected 4294967296 = 2147483648
      ∧ single_thread 0 4294967296 = some 9223372039002259456
      ∧ cpu_share 4 0 4294967296 = some 9223372039002259456
      ∧ main 4 ["sum", "4294967296"]
          = Except.ok (some { expected := 2147483648, calculated := 9223372039002259456 }) := by
  have hs : single_thread 0 4294967296 = some 9223372039002259456 := by
    rw [single_thread_eq 0 4294967296 (by decide), rangeSum_gauss]
    decide
  have hc : cpu_share 4 0 4294967296 = some 9223372039002259456 := by
    rw [cpu_share_eq 4 0 4294967296 (by decide) (by decide) (by decide), rangeSum_gauss]
    decide
  refine ⟨by decide, hs, hc, ?_⟩
  have hb : get_bound_from_args ["sum", "4294967296"] = Except.ok 4294967296 := by decide
  have hg : get_threading_scheme ["sum", "4294967296"]
      = Except.ok ThreadingScheme.single_thread := by decide
  have he : expected 4294967296 = 2147483648 := by decide
  simp only [main, hb, hg, ThreadingScheme.call, hs, he, Option.map_some']

/-- C2: for `1 ≤ N ≤ 2^63 - 1` and a worker count `n_cpus ≥ 1`, each scheme of
the registry, started with `total = 0`, returns the sum `1 + 2 + ... + N`
reduced modulo `2^64`, hence exactly that sum when it is below `2^64`. -/
theorem C2_schemes_return_sum_mod (N n_cpus : Nat) (_hN1 : 1 ≤ N)
    (hN : N ≤ 9223372036854775807) (hn : 1 ≤ n_cpus) :
    single_thread 0 N = some ((∑ i ∈ Finset.Icc 1 N, i) % U64_MOD)
      ∧ cpu_share n_cpus 0 N = some ((∑ i ∈ Finset.Icc 1 N, i) % U64_MOD)
      ∧ (∀ entry ∈ threading_schemes,
          entry.scheme.call n_cpus 0 N = some ((∑ i ∈ Finset.Icc 1 N, i) % U64_MOD))
      ∧ ((∑ i ∈ Finset.Icc 1 N, i) < U64_MOD →
          ∀ entry ∈ threading_schemes,
            entry.scheme.call n_cpus 0 N = some (∑ i ∈ Finset.Icc 1 N, i)) := by
  have hN1 : N + 1 < U64_MOD := by
    unfold U64_MOD
    omega
  have hs : single_thread 0 N = some ((∑ i ∈ Finset.Icc 1 N, i) % U64_MOD) := by
    rw [single_thread_eq 0 N hN1, rangeSum_Icc, Nat.zero_add]
  have hc : cpu_share n_cpus 0 N = some ((∑ i ∈ Finset.Icc 1 N, i) % U64_MOD) := by
    rw [cpu_share_eq n_cpus 0 N hn (by decide) hN1, rangeSum_Icc, Nat.zero_add]
  have hall : ∀ entry ∈ threading_schemes,
      entry.scheme.call n_cpus 0 N = some ((∑ i ∈ Finset.Icc 1 N, i) % U64_MOD) := by
    intro entry hentry
    simp only [threading_schemes, List.mem_cons, List.mem_singleton, List.not_mem_nil,
      or_false] at hentry
    rcases hentry with rfl | rfl
    · exact hs
    · exact hc
  refine ⟨hs, hc, hall, ?_⟩
  intro hlt entry hentry
  rw [hall entry hentry, Nat.mod_eq_of_lt hlt]

/-- C2 at `N = 10` with four workers. -/
theorem C2_schemes_return_sum_mod_witness :
    single_thread 0 10 = some ((∑ i ∈ Finset.Icc 1 10, i) % U64_MOD)
      ∧ cpu_share 4 0 10 = some ((∑ i ∈ Finset.Icc 1 10, i) % U64_MOD)
      ∧ (∀ entry ∈ threading_schemes,
          entry.scheme.call 4 0 10 = some ((∑ i ∈ Finset.Icc 1 10, i) % U64_MOD))
      ∧ ((∑ i ∈ Finset.Icc 1 10, i) < U64_MOD →
          ∀ entry ∈ threading_schemes,
            entry.scheme.call 4 0 10 = some (∑ i ∈ Finset.Icc 1 10, i)) :=
  C2_schemes_return_sum_mod 10 4 (by decide) (by decide) (by decide)

/-- C3: for an interval `[a, b)` with `a ≤ b` of `u64` values and `n ≥ 1`, the
`n` ranges written by `subinterval` tile `[a, b)`: every `x` with `a ≤ x < b`
lies in exactly one of them, none of them holds a point outside `[a, b)`, two
different ones share no point, and their `begin` values are non-decreasing in
`i`. -/
theorem C3_subintervals_tile (a b n : Nat) (hab : a ≤ b) (hb : b < U64_MOD) (hn : 1 ≤ n) :
    (∀ x, a ≤ x → x < b →
        ∃! i, i < n ∧ (subinterval { begin := a, end_ := b } n i).begin ≤ x
          ∧ x < (subinterval { begin := a, end_ := b } n i).end_)
      ∧ (∀ i x, i < n → (subinterval { begin := a, end_ := b } n i).begin ≤ x →
          x < (subinterval { begin := a, end_ := b } n i).end_ → a ≤ x ∧ x < b)
      ∧ (∀ i j x, i < n → j < n → i ≠ j →
          ¬ ((subinterval { begin := a, end_ := b } n i).begin ≤ x
              ∧ x < (subinterval { begin := a, end_ := b } n i).end_
              ∧ (subinterval { begin := a, end_ := b } n j).begin ≤ x
              ∧ x < (subinterval { begin := a, end_ := b } n j).end_))
      ∧ (∀ i j, i ≤ j → j < n →
          (subinterval { begin := a, end_ := b } n i).begin
            ≤ (subinterval { begin := a, end_ := b } n j).begin) := by
  have hdisj : ∀ i j x, i < n → j < n → i ≠ j →
      ¬ ((subinterval { begin := a, end_ := b } n i).begin ≤ x
          ∧ x < (subinterval { begin := a, end_ := b } n i).end_
          ∧ (subinterval { begin := a, end_ := b } n j).begin ≤ x
          ∧ x < (subinterval { begin := a, end_ := b } n j).end_) := by
    intro i j x hi hj hij h
    obtain ⟨h1, h2, h3, h4⟩ := h
    rcases Nat.lt_or_gt_of_ne hij with hlt | hgt
    · have h5 := subinterval_end_le_begin a b n i j hab hb hlt hj
      omega
    · have h5 := subinterval_end_le_begin a b n j i hab hb hgt hi
      omega
  refine ⟨?_, ?_, hdisj, ?_⟩
  · intro x hax hxb
    obtain ⟨i, hi, h1, h2⟩ := subinterval_cover a b n x hab hb hn hax hxb
    refine ⟨i, ⟨hi, h1, h2⟩, ?_⟩
    intro j hj
    obtain ⟨hjn, h3, h4⟩ := hj
    by_contra hne
    exact hdisj j i x hjn hi hne ⟨h3, h4, h1, h2⟩
  · intro i x hi h1 h2
    have h3 := subinterval_le_begin a b n i hab hb hi
    have h4 := subinterval_end_le a b n i hab hb hi
    omega
  · intro i j hij hj
    exact subinterval_begin_mono a b n i j hab hb hij hj

/-- C3 on `[1, 8)` cut in five. -/
theorem C3_subintervals_tile_witness :
    (∀ x, 1 ≤ x → x < 8 →
        ∃! i, i < 5 ∧ (subinterval { begin := 1, end_ := 8 } 5 i).begin ≤ x
          ∧ x < (subinterval { begin := 1, end_ := 8 } 5 i).end_)
      ∧ (∀ i x, i < 5 → (subinterval { begin := 1, end_ := 8 } 5 i).begin ≤ x →
          x < (subinterval { begin := 1, end_ := 8 } 5 i).end_ → 1 ≤ x ∧ x < 8)
      ∧ (∀ i j x, i < 5 → j < 5 → i ≠ j →
          ¬ ((subinterval { begin := 1, end_ := 8 } 5 i).begin ≤ x
              ∧ x < (subinterval { begin := 1, end_ := 8 } 5 i).end_
              ∧ (subinterval { begin := 1, end_ := 8 } 5 j).begin ≤ x
              ∧ x < (subinterval { begin := 1, end_ := 8 } 5 j).end_))
      ∧ (∀ i j, i ≤ j → j < 5 →
          (subinterval { begin := 1, end_ := 8 } 5 i).begin
            ≤ (subinterval { begin := 1, end_ := 8 } 5 j).begin) :=
  C3_subintervals_tile 1 8 5 (by decide) (by decide) (by decide)

/-- C4: for `a ≤ b` and `n ≥ 1` the subintervals are contiguous: the first
begins at `a`, each one before the last ends where the next begins, and the
last ends at `b`. -/
theorem C4_subintervals_contiguous (a b n : Nat) (hab : a ≤ b) (hb : b < U64_MOD)
    (hn : 1 ≤ n) :
    (subinterval { begin := a, end_ := b } n 0).begin = a
      ∧ (∀ i, i + 1 < n →
          (subinterval { begin := a, end_ := b } n i).end_
            = (subinterval { begin := a, end_ := b } n (i + 1)).begin)
      ∧ (subinterval { begin := a, end_ := b } n (n - 1)).end_ = b := by
  refine ⟨?_, ?_, subinterval_end_last a b n hab hb hn⟩
  · rw [subinterval_begin a b n 0 hab hb (by omega)]
    simp
  · intro i hi
    rw [subinterval_end_inner a b n i hab hb hi, subinterval_begin a b n (i + 1) hab hb hi]

/-- C4 on `[1, 8)` cut in five. -/
theorem C4_subintervals_contiguous_witness :
    (subinterval { begin := 1, end_ := 8 } 5 0).begin = 1
      ∧ (∀ i, i + 1 < 5 →
          (subinterval { begin := 1, end_ := 8 } 5 i).end_
            = (subinterval { begin := 1, end_ := 8 } 5 (i + 1)).begin)
      ∧ (subinterval { begin := 1, end_ := 8 } 5 (5 - 1)).end_ = 8 :=
  C4_subintervals_contiguous 1 8 5 (by decide) (by decide) (by decide)

/-- C5: for `a ≤ b`, `n ≥ 1` and `0 ≤ i < n`, `subinterval` yields
`begin_i = a + ⌊(b-a)/n⌋ * i` and a length `end_i - begin_i` of `⌊(b-a)/n⌋` when
`i < n - 1` and of `⌊(b-a)/n⌋ + (b-a) mod n` when `i = n - 1`; and `n = 5` on
`[1, 8)` gives `[1,2), [2,3), [3,4), [4,5), [5,8)`. -/
theorem C5_subinterval_bounds (a b n i : Nat) (hab : a ≤ b) (hb : b < U64_MOD)
    (hn : 1 ≤ n) (hi : i < n) :
    (subinterval { begin := a, end_ := b } n i).begin = a + (b - a) / n * i
      ∧ (subinterval { begin := a, end_ := b } n i).begin
          ≤ (subinterval { begin := a, end_ := b } n i).end_
      ∧ (i < n - 1 →
          (subinterval { begin := a, end_ := b } n i).end_
            - (subinterval { begin := a, end_ := b } n i).begin = (b - a) / n)
      ∧ (i = n - 1 →
          (subinterval { begin := a, end_ := b } n i).end_
            - (subinterval { begin := a, end_ := b } n i).begin
              = (b - a) / n + (b - a) % n)
      ∧ (List.range 5).map (fun k => subinterval { begin := 1, end_ := 8 } 5 k)
          = [{ begin := 1, end_ := 2 }, { begin := 2, end_ := 3 }, { begin := 3, end_ := 4 },
             { begin := 4, end_ := 5 }, { begin := 5, end_ := 8 }] := by
  refine ⟨subinterval_begin a b n i hab hb hi, subinterval_begin_le_end a b n i hab hb hi,
    ?_, ?_, by decide⟩
  · intro hlt
    rw [subinterval_eq a b n i hab hb hi]
    have hne : ¬ (i + 1 = n) := by omega
    simp only [if_neg hne]
    generalize (b - a) / n * i = x
    generalize (b - a) / n = y
    omega
  · intro heq
    rw [subinterval_eq a b n i hab hb hi]
    have he : i + 1 = n := by omega
    simp only [if_pos he]
    generalize (b - a) / n * i = x
    generalize (b - a) / n = y
    generalize (b - a) % n = z
    omega

/-- C5 at the last of five partitions of `[1, 8)`. -/
theorem C5_subinterval_bounds_witness :
    (subinterval { begin := 1, end_ := 8 } 5 4).begin = 1 + (8 - 1) / 5 * 4
      ∧ (subinterval { begin := 1, end_ := 8 } 5 4).begin
          ≤ (subinterval { begin := 1, end_ := 8 } 5 4).end_
      ∧ (4 < 5 - 1 →
          (subinterval { begin := 1, end_ := 8 } 5 4).end_
            - (subinterval { begin := 1, end_ := 8 } 5 4).begin = (8 - 1) / 5)
      ∧ (4 = 5 - 1 →
          (subinterval { begin := 1, end_ := 8 } 5 4).end_
            - (subinterval { begin := 1, end_ := 8 } 5 4).begin
              = (8 - 1) / 5 + (8 - 1) % 5)
      ∧ (List.range 5).map (fun k => subinterval { begin := 1, end_ := 8 } 5 k)
          = [{ begin := 1, end_ := 2 }, { begin := 2, end_ := 3 }, { begin := 3, end_ := 4 },
             { begin := 4, end_ := 5 }, { begin := 5, end_ := 8 }] :=
  C5_subinterval_bounds 1 8 5 4 (by decide) (by decide) (by decide) (by decide)

/-- C6: for a range of `u64` values with `begin ≤ end`, `sum_over` returns the
sum of the integers `i` with `begin ≤ i < end` reduced modulo `2^64`, and
leaves the `Range` object as it received it. -/
theorem C6_sum_over_correct (range : Range) (_hle : range.begin ≤ range.end_)
    (hend : range.end_ < U64_MOD) :
    sum_over range
      = some ((∑ i ∈ Finset.Ico range.begin range.end_, i) % U64_MOD, range) :=
  sum_over_eq range hend

/-- C6 on `[1, 11)`. -/
theorem C6_sum_over_correct_witness :
    sum_over { begin := 1, end_ := 11 }
      = some ((∑ i ∈ Finset.Ico 1 11, i) % U64_MOD, { begin := 1, end_ := 11 }) :=
  C6_sum_over_correct { begin := 1, end_ := 11 } (by decide) (by decide)

/-- C7: `sum_over` is additive: for `u64` values `a ≤ b ≤ c` the three calls
return, and `sum_over([a,b)) + sum_over([b,c))`, added in `u64`, is
`sum_over([a,c))`. -/
theorem C7_sum_over_additive (a b c : Nat) (hab : a ≤ b) (hbc : b ≤ c) (hc : c < U64_MOD) :
    ∃ x y z,
      sum_over { begin := a, end_ := b } = some (x, { begin := a, end_ := b })
        ∧ sum_over { begin := b, end_ := c } = some (y, { begin := b, end_ := c })
        ∧ sum_over { begin := a, end_ := c } = some (z, { begin := a, end_ := c })
        ∧ (x + y) % U64_MOD = z := by
  refine ⟨rangeSum a b % U64_MOD, rangeSum b c % U64_MOD, rangeSum a c % U64_MOD,
    sum_over_eq _ (Nat.lt_of_le_of_lt hbc hc), sum_over_eq _ hc, sum_over_eq _ hc, ?_⟩
  rw [← rangeSum_add hab hbc]
  exact (Nat.add_mod _ _ _).symm

/-- C7 on `1 ≤ 4 ≤ 11`. -/
theorem C7_sum_over_additive_witness :
    ∃ x y z,
      sum_over { begin := 1, end_ := 4 } = some (x, { begin := 1, end_ := 4 })
        ∧ sum_over { begin := 4, end_ := 11 } = some (y, { begin := 4, end_ := 11 })
        ∧ sum_over { begin := 1, end_ := 11 } = some (z, { begin := 1, end_ := 11 })
        ∧ (x + y) % U64_MOD = z :=
  C7_sum_over_additive 1 4 11 (by decide) (by decide) (by decide)

/-! ## Argument parsing -/

theorem atoll_digits_eq (cs : List Char) :
    ∀ acc : Nat, atoll_digits cs acc
      = (cs.takeWhile isdigit).foldl (fun acc d => acc * 10 + (d.toNat - 48)) acc := by
  induction cs with
  | nil =>
    intro acc
    simp [atoll_digits]
  | cons c cs ih =>
    intro acc
    by_cases hc : isdigit c = true
    · simp [atoll_digits, List.takeWhile_cons, hc, ih]
    · simp [atoll_digits, List.takeWhile_cons, hc]

theorem atoll_digits_zero (cs : List Char) :
    atoll_digits cs 0 = digitsValue (cs.takeWhile isdigit) := by
  unfold digitsValue
  exact atoll_digits_eq cs 0

theorem atoll_of_leadingNumeral_none (s : String) (h : leadingNumeral s = none) :
    atoll s = 0 := by
  unfold leadingNumeral at h
  unfold atoll
  split at h
  · rename_i heq
    simp [heq]
  · rename_i c cs heq
    split_ifs at h with h1 h2 h3 h4 h5
    · simp only [if_pos h1, atoll_digits_zero]
      rw [not_not.mp h2]
      decide
    · simp only [if_neg h1, if_pos h3, atoll_digits_zero]
      rw [not_not.mp h4]
      decide
    · simp only [if_neg h1, if_neg h3, atoll_digits_zero]
      rw [not_not.mp h5]
      decide

theorem atoll_of_leadingNumeral_some (s : String) (v : Int) (h : leadingNumeral s = some v) :
    atoll s = max LLONG_MIN (min LLONG_MAX v) := by
  unfold leadingNumeral at h
  unfold atoll
  split at h
  · exact absurd h (by simp)
  · rename_i c cs heq
    split_ifs at h with h1 h2 h3 h4 h5
    · simp only [if_pos h1, atoll_digits_zero]
      simp only [Option.some.injEq] at h
      subst h
      unfold LLONG_MIN LLONG_MAX
      omega
    · simp only [if_neg h1, if_pos h3, atoll_digits_zero]
      simp only [Option.some.injEq] at h
      subst h
      unfold LLONG_MIN LLONG_MAX
      omega
    · simp only [if_neg h1, if_neg h3, atoll_digits_zero]
      simp only [Option.some.injEq] at h
      subst h
      unfold LLONG_MIN LLONG_MAX
      omega

theorem atoll_le_max (s : String) : atoll s ≤ LLONG_MAX := by
  cases h : leadingNumeral s with
  | none =>
    rw [atoll_of_leadingNumeral_none s h]
    decide
  | some v =>
    rw [atoll_of_leadingNumeral_some s v h]
    unfold LLONG_MIN LLONG_MAX
    omega

theorem isspace_of_isdigit (c : Char) (h : isdigit c = true) : isspace c = false := by
  unfold isdigit at h
  unfold isspace
  simp only [Bool.and_eq_true, decide_eq_true_eq] at h
  simp only [Bool.or_eq_false_iff, Bool.and_eq_false_iff, decide_eq_false_iff_not]
  omega

theorem takeWhile_of_all (cs : List Char) (h : cs.all isdigit = true) :
    cs.takeWhile isdigit = cs := by
  rw [List.takeWhile_eq_self_iff]
  intro x hx
  exact List.all_eq_true.mp h x hx

theorem leadingNumeral_of_decimalValue (s : String) (v : Int) (h : decimalValue s = some v) :
    leadingNumeral s = some v := by
  unfold decimalValue at h
  unfold leadingNumeral
  split at h
  · exact absurd h (by simp)
  · rename_i c cs heq
    rw [heq]
    split_ifs at h with h1 h2 h3 h4 h5
    · have hsp : isspace c = false := by
        rw [h1]
        decide
      rw [List.dropWhile_cons_of_neg (by simp [hsp])]
      simp only [if_pos h1, takeWhile_of_all cs h2.2, if_pos h2.1]
      exact h
    · have hsp : isspace c = false := by
        rw [h3]
        decide
      rw [List.dropWhile_cons_of_neg (by simp [hsp])]
      simp only [if_neg h1, if_pos h3, takeWhile_of_all cs h4.2, if_pos h4.1]
      exact h
    · have hc : isdigit c = true := by
        have hall := List.all_eq_true.mp h5
        exact hall c (List.mem_cons_self c cs)
      rw [List.dropWhile_cons_of_neg (by simp [isspace_of_isdigit c hc])]
      have hne : (c :: cs) ≠ [] := List.cons_ne_nil c cs
      simp only [if_neg h1, if_neg h3, takeWhile_of_all (c :: cs) h5, if_pos hne]
      exact h

theorem get_bound_from_args_eq (prog s : String) (rest : List String) :
    get_bound_from_args (prog :: s :: rest)
      = if atoll s ≤ 0 then Except.error 1
        else Except.ok ((atoll s) % (U64_MOD : Int)).toNat := by
  simp [get_bound_from_args]

theorem get_threading_scheme_loop_cons (arg : String) (rest : List String) :
    get_threading_scheme_loop (arg :: rest)
      = if arg = "--method" ∨ arg = "-m" then
          (match rest with
            | value :: _ =>
              (match find_scheme threading_schemes value with
                | some scheme => Except.ok scheme
                | none => Except.error 1)
            | [] => Except.error 1)
        else get_threading_scheme_loop rest := by
  cases rest <;> rfl

theorem get_threading_scheme_loop_skip (pre rest : List String)
    (hpre : ∀ x ∈ pre, x ≠ "--method" ∧ x ≠ "-m") :
    get_threading_scheme_loop (pre ++ rest) = get_threading_scheme_loop rest := by
  induction pre with
  | nil => rfl
  | cons x xs ih =>
    have hx := hpre x (List.mem_cons_self x xs)
    have hxs : ∀ y ∈ xs, y ≠ "--method" ∧ y ≠ "-m" :=
      fun y hy => hpre y (List.mem_cons_of_mem x hy)
    have hnot : ¬ (x = "--method" ∨ x = "-m") := by
      intro h
      rcases h with h | h
      · exact hx.1 h
      · exact hx.2 h
    rw [List.cons_append, get_threading_scheme_loop_cons, if_neg hnot]
    exact ih hxs

theorem find_scheme_unknown (value : String) (h1 : value ≠ "single") (h2 : value ≠ "cpus") :
    find_scheme threading_schemes value = none := by
  simp [find_scheme, threading_schemes, Ne.symm h1, Ne.symm h2]

/-- C8 (counterexample): the argument `12abc` is not a decimal numeral, and
`get_bound_from_args` does not exit on it: it returns 12. -/
theorem C8_trailing_text_is_accepted :
    decimalValue "12abc" = none
      ∧ get_bound_from_args ["sum", "12abc"] = Except.ok 12
      ∧ get_bound_from_args ["sum", "12abc"] ≠ Except.error 1 := by
  decide

/-- C8 (amended): `get_bound_from_args` exits with status 1 when `argv` has no
first argument, when the first argument does not start with a decimal numeral
(after optional white space and an optional sign), and when the numeral it
starts with denotes an integer `≤ 0`; it returns `n` when that numeral denotes
`n` with `1 ≤ n ≤ 2^63 - 1`.  In particular a first argument that is a decimal
numeral of an integer `≤ 0` exits with status 1, and one that is the decimal
numeral of `n` with `1 ≤ n ≤ 2^63 - 1` returns `n`. -/
theorem C8_get_bound_from_args (prog s : String) (rest : List String) :
    (∀ argv : List String, argv.length < 2 → get_bound_from_args argv = Except.error 1)
      ∧ (leadingNumeral s = none →
          get_bound_from_args (prog :: s :: rest) = Except.error 1)
      ∧ (∀ v : Int, leadingNumeral s = some v → v ≤ 0 →
          get_bound_from_args (prog :: s :: rest) = Except.error 1)
      ∧ (∀ n : Nat, leadingNumeral s = some (n : Int) → 1 ≤ n → n ≤ 9223372036854775807 →
          get_bound_from_args (prog :: s :: rest) = Except.ok n)
      ∧ (∀ v : Int, decimalValue s = some v → v ≤ 0 →
          get_bound_from_args (prog :: s :: rest) = Except.error 1)
      ∧ (∀ n : Nat, decimalValue s = some (n : Int) → 1 ≤ n → n ≤ 9223372036854775807 →
          get_bound_from_args (prog :: s :: rest) = Except.ok n) := by
  have hneg : ∀ v : Int, leadingNumeral s = some v → v ≤ 0 →
      get_bound_from_args (prog :: s :: rest) = Except.error 1 := by
    intro v hv hle
    have hat : atoll s ≤ 0 := by
      rw [atoll_of_leadingNumeral_some s v hv]
      unfold LLONG_MIN LLONG_MAX
      omega
    rw [get_bound_from_args_eq, if_pos hat]
  have hpos : ∀ n : Nat, leadingNumeral s = some (n : Int) → 1 ≤ n →
      n ≤ 9223372036854775807 → get_bound_from_args (prog :: s :: rest) = Except.ok n := by
    intro n hv h1 h2
    have hat : atoll s = (n : Int) := by
      rw [atoll_of_leadingNumeral_some s n hv]
      unfold LLONG_MIN LLONG_MAX
      omega
    have hnot : ¬ ((n : Int) ≤ 0) := by omega
    rw [get_bound_from_args_eq, hat, if_neg hnot]
    congr 1
    unfold U64_MOD
    omega
  refine ⟨?_, ?_, hneg, hpos, ?_, ?_⟩
  · intro argv hlen
    unfold get_bound_from_args
    rw [if_pos hlen]
  · intro hnone
    have hat : atoll s ≤ 0 := by
      rw [atoll_of_leadingNumeral_none s hnone]
    rw [get_bound_from_args_eq, if_pos hat]
  · intro v hv hle
    exact hneg v (leadingNumeral_of_decimalValue s v hv) hle
  · intro n hv h1 h2
    exact hpos n (leadingNumeral_of_decimalValue s n hv) h1 h2

/-- C8 (amended) at the argument `10`. -/
theorem C8_get_bound_from_args_witness :
    decimalValue "10" = some ((10 : Nat) : Int)
      ∧ get_bound_from_args ["sum", "10"] = Except.ok 10 :=
  ⟨by decide,
    (C8_get_bound_from_args "sum" "10" []).2.2.2.2.2 10 (by decide) (by decide) (by decide)⟩

/-- C9 (counterexample): in `sum 10 -m single -m` a `-m` is the last argument
and no value follows it, and in `sum 10 -m single -m bogus` the value after a
`-m` is not a registry name; `get_threading_scheme` exits on neither and
returns `single_thread`. -/
theorem C9_later_flag_is_not_looked_at :
    ["sum", "10", "-m", "single", "-m"].getLast? = some "-m"
      ∧ get_threading_scheme ["sum", "10", "-m", "single", "-m"]
          = Except.ok ThreadingScheme.single_thread
      ∧ get_threading_scheme ["sum", "10", "-m", "single", "-m", "bogus"]
          = Except.ok ThreadingScheme.single_thread := by
  decide

/-- C9 (amended): `get_threading_scheme` decides on the first `--method` or
`-m` argument after `argv[0]`: (a) it exits with status 1 if that argument is
the last one, (b) it exits with status 1 if the value after it is not exactly
`single` or `cpus`, (c) it returns `single_thread` for the value `single` and
`cpu_share` for `cpus`, and (d) it returns `single_thread` when no argument
after `argv[0]` is `--method` or `-m`. -/
theorem C9_get_threading_scheme (prog flag : String) (pre : List String)
    (hpre : ∀ x ∈ pre, x ≠ "--method" ∧ x ≠ "-m")
    (hflag : flag = "--method" ∨ flag = "-m") :
    get_threading_scheme (prog :: (pre ++ [flag])) = Except.error 1
      ∧ (∀ (value : String) (rest : List String), value ≠ "single" → value ≠ "cpus" →
          get_threading_scheme (prog :: (pre ++ flag :: value :: rest)) = Except.error 1)
      ∧ (∀ rest : List String,
          get_threading_scheme (prog :: (pre ++ flag :: "single" :: rest))
            = Except.ok ThreadingScheme.single_thread)
      ∧ (∀ rest : List String,
          get_threading_scheme (prog :: (pre ++ flag :: "cpus" :: rest))
            = Except.ok ThreadingScheme.cpu_share)
      ∧ get_threading_scheme (prog :: pre) = Except.ok ThreadingScheme.single_thread
      ∧ get_threading_scheme [] = Except.ok ThreadingScheme.single_thread := by
  refine ⟨?_, ?_, ?_, ?_, ?_, by decide⟩
  · unfold get_threading_scheme
    rw [List.drop_one, List.tail_cons, get_threading_scheme_loop_skip pre _ hpre,
      get_threading_scheme_loop_cons, if_pos hflag]
  · intro value rest h1 h2
    unfold get_threading_scheme
    rw [List.drop_one, List.tail_cons, get_threading_scheme_loop_skip pre _ hpre,
      get_threading_scheme_loop_cons, if_pos hflag]
    simp only [find_scheme_unknown value h1 h2]
  · intro rest
    unfold get_threading_scheme
    rw [List.drop_one, List.tail_cons, get_threading_scheme_loop_skip pre _ hpre,
      get_threading_scheme_loop_cons, if_pos hflag]
    rfl
  · intro rest
    unfold get_threading_scheme
    rw [List.drop_one, List.tail_cons, get_threading_scheme_loop_skip pre _ hpre,
      get_threading_scheme_loop_cons, if_pos hflag]
    rfl
  · unfold get_threading_scheme
    have h := get_threading_scheme_loop_skip pre [] hpre
    rw [List.append_nil] at h
    rw [List.drop_one, List.tail_cons, h]
    rfl

/-- C9 (amended) on `sum 10 -m ...`. -/
theorem C9_get_threading_scheme_witness :
    get_threading_scheme ("sum" :: (["10"] ++ ["-m"])) = Except.error 1
      ∧ (∀ (value : String) (rest : List String), value ≠ "single" → value ≠ "cpus" →
          get_threading_scheme ("sum" :: (["10"] ++ "-m" :: value :: rest)) = Except.error 1)
      ∧ (∀ rest : List String,
          get_threading_scheme ("sum" :: (["10"] ++ "-m" :: "single" :: rest))
            = Except.ok ThreadingScheme.single_thread)
      ∧ (∀ rest : List String,
          get_threading_scheme ("sum" :: (["10"] ++ "-m" :: "cpus" :: rest))
            = Except.ok ThreadingScheme.cpu_share)
      ∧ get_threading_scheme ("sum" :: ["10"]) = Except.ok ThreadingScheme.single_thread
      ∧ get_threading_scheme [] = Except.ok ThreadingScheme.single_thread :=
  C9_get_threading_scheme "sum" "-m" ["10"] (by decide) (Or.inr rfl)

theorem valid_bound_is_no_flag (prog s : String) (rest : List String) (N : Nat)
    (hvalid : get_bound_from_args (prog :: s :: rest) = Except.ok N) :
    s ≠ "--method" ∧ s ≠ "-m" := by
  rw [get_bound_from_args_eq] at hvalid
  constructor
  · intro h
    subst h
    have h0 : atoll "--method" = 0 := by decide
    rw [h0] at hvalid
    simp at hvalid
  · intro h
    subst h
    have h0 : atoll "-m" = 0 := by decide
    rw [h0] at hvalid
    simp at hvalid

theorem valid_bound_lt (prog s : String) (rest : List String) (N : Nat)
    (hvalid : get_bound_from_args (prog :: s :: rest) = Except.ok N) :
    1 ≤ N ∧ N ≤ 9223372036854775807 := by
  rw [get_bound_from_args_eq] at hvalid
  have hmax := atoll_le_max s
  unfold LLONG_MAX at hmax
  by_cases hle : atoll s ≤ 0
  · rw [if_pos hle] at hvalid
    exact absurd hvalid (by simp)
  · rw [if_neg hle] at hvalid
    simp only [Except.ok.injEq] at hvalid
    unfold U64_MOD at hvalid
    omega

/-- C10: for a valid first argument (one on which `get_bound_from_args` returns
`N`), the runs `prog N`, `prog N --method single` and `prog N -m single` select
the same scheme function, `single_thread`, and print the same `Expected` and
`Calculated` values. -/
theorem C10_default_selection (prog s : String) (n_cpus N : Nat)
    (hvalid : get_bound_from_args [prog, s] = Except.ok N) :
    get_threading_scheme [prog, s] = Except.ok ThreadingScheme.single_thread
      ∧ get_threading_scheme [prog, s, "--method", "single"]
          = Except.ok ThreadingScheme.single_thread
      ∧ get_threading_scheme [prog, s, "-m", "single"]
          = Except.ok ThreadingScheme.single_thread
      ∧ main n_cpus [prog, s, "--method", "single"] = main n_cpus [prog, s]
      ∧ main n_cpus [prog, s, "-m", "single"] = main n_cpus [prog, s]
      ∧ ∃ calculated : Nat,
          main n_cpus [prog, s]
            = Except.ok (some { expected := expected N, calculated := calculated }) := by
  have hs := valid_bound_is_no_flag prog s [] N hvalid
  have hpre : ∀ x ∈ [s], x ≠ "--method" ∧ x ≠ "-m" := by
    intro x hx
    rw [List.mem_singleton] at hx
    rw [hx]
    exact hs
  have hnot : ¬ (s = "--method" ∨ s = "-m") := by
    intro h
    rcases h with h | h
    · exact hs.1 h
    · exact hs.2 h
  have h0 : get_threading_scheme [prog, s] = Except.ok ThreadingScheme.single_thread := by
    unfold get_threading_scheme
    rw [List.drop_one, List.tail_cons, get_threading_scheme_loop_cons, if_neg hnot]
    rfl
  have h1 : get_threading_scheme [prog, s, "--method", "single"]
      = Except.ok ThreadingScheme.single_thread := by
    unfold get_threading_scheme
    rw [List.drop_one, List.tail_cons, get_threading_scheme_loop_cons, if_neg hnot]
    rfl
  have h2 : get_threading_scheme [prog, s, "-m", "single"]
      = Except.ok ThreadingScheme.single_thread := by
    unfold get_threading_scheme
    rw [List.drop_one, List.tail_cons, get_threading_scheme_loop_cons, if_neg hnot]
    rfl
  have hb1 : get_bound_from_args [prog, s, "--method", "single"] = Except.ok N := by
    rw [← hvalid, get_bound_from_args_eq, get_bound_from_args_eq]
  have hb2 : get_bound_from_args [prog, s, "-m", "single"] = Except.ok N := by
    rw [← hvalid, get_bound_from_args_eq, get_bound_from_args_eq]
  have hN := valid_bound_lt prog s [] N hvalid
  have hrun : single_thread 0 N = some ((0 + rangeSum 1 (N + 1)) % U64_MOD) :=
    single_thread_eq 0 N (by unfold U64_MOD; omega)
  refine ⟨h0, h1, h2, ?_, ?_, ⟨(0 + rangeSum 1 (N + 1)) % U64_MOD, ?_⟩⟩
  · simp only [main, hb1, h1, hvalid, h0]
  · simp only [main, hb2, h2, hvalid, h0]
  · simp only [main, hvalid, h0, ThreadingScheme.call, hrun, Option.map_some']

/-- C10 on the argument `10`. -/
theorem C10_default_selection_witness :
    get_threading_scheme ["sum", "10"] = Except.ok ThreadingScheme.single_thread
      ∧ get_threading_scheme ["sum", "10", "--method", "single"]
          = Except.ok ThreadingScheme.single_thread
      ∧ get_threading_scheme ["sum", "10", "-m", "single"]
          = Except.ok ThreadingScheme.single_thread
      ∧ main 4 ["sum", "10", "--method", "single"] = main 4 ["sum", "10"]
      ∧ main 4 ["sum", "10", "-m", "single"] = main 4 ["sum", "10"]
      ∧ ∃ calculated : Nat,
          main 4 ["sum", "10"]
            = Except.ok (some { expected := expected 10, calculated := calculated }) :=
  C10_default_selection "sum" "10" 4 10 (by decide)

/-! ## The two schemes, the accumulator and the loop counter -/

theorem single_thread_run_workers (total N : Nat) :
    single_thread total N = run_workers total [single_thread_range N] := by
  unfold single_thread single_thread_range
  simp only [run_workers]

theorem cpu_share_ranges_eq (n_cpus N : Nat) :
    cpu_share_ranges n_cpus N
      = (List.range n_cpus).map (fun i => subinterval (cpu_share_interval N) n_cpus i) := rfl

theorem cpu_share_ranges_end_lt (n_cpus N : Nat) :
    ∀ r ∈ cpu_share_ranges n_cpus N, r.end_ < U64_MOD := by
  intro r hr
  unfold cpu_share_ranges at hr
  obtain ⟨i, _, rfl⟩ := List.mem_map.mp hr
  unfold subinterval
  exact Nat.mod_lt _ (by decide)

theorem list_sum_mod (l : List Nat) (m : Nat) :
    (l.map (fun x => x % m)).sum % m = l.sum % m := by
  induction l with
  | nil => rfl
  | cons x xs ih =>
    simp only [List.map_cons, List.sum_cons]
    rw [Nat.add_mod, ih, Nat.mod_mod, ← Nat.add_mod]

theorem sum_over_loop_none (fuel : Nat) (range : Range) :
    ∀ (i acc : Nat), range.end_ < U64_MOD → fuel < range.end_ - i →
      sum_over_loop fuel range i acc = none := by
  induction fuel with
  | zero =>
    intro i acc _ hfuel
    have hlt : i < range.end_ := by omega
    simp [sum_over_loop, hlt]
  | succ fuel ih =>
    intro i acc hend hfuel
    have hlt : i < range.end_ := by omega
    have hi : (i + 1) % U64_MOD = i + 1 := Nat.mod_eq_of_lt (by omega)
    rw [sum_over_loop, if_pos hlt, hi]
    exact ih (i + 1) _ hend (by omega)

theorem sum_over_loop_count_eq (fuel : Nat) (range : Range) :
    ∀ (i acc iterations : Nat), range.end_ < U64_MOD → range.end_ - i ≤ fuel →
      acc < U64_MOD →
      sum_over_loop_count fuel range i acc iterations
        = some (iterations + (range.end_ - i), i + (range.end_ - i),
            (acc + rangeSum i range.end_) % U64_MOD) := by
  induction fuel with
  | zero =>
    intro i acc iterations _ hfuel hacc
    have hle : range.end_ ≤ i := by omega
    have h0 : range.end_ - i = 0 := by omega
    simp [sum_over_loop_count, Nat.not_lt.mpr hle, rangeSum_empty hle,
      Nat.mod_eq_of_lt hacc, h0]
  | succ fuel ih =>
    intro i acc iterations hend hfuel hacc
    by_cases hlt : i < range.end_
    · have hi : (i + 1) % U64_MOD = i + 1 := Nat.mod_eq_of_lt (by omega)
      have hacc2 : (acc + i) % U64_MOD < U64_MOD := Nat.mod_lt _ (by decide)
      have h1 : iterations + 1 + (range.end_ - (i + 1)) = iterations + (range.end_ - i) := by
        omega
      have h2 : i + 1 + (range.end_ - (i + 1)) = i + (range.end_ - i) := by omega
      rw [sum_over_loop_count, if_pos hlt, hi,
        ih (i + 1) _ (iterations + 1) hend (by omega) hacc2, h1, h2,
        rangeSum_succ_bot hlt, Nat.mod_add_mod, Nat.add_assoc]
    · have hle : range.end_ ≤ i := Nat.le_of_not_lt hlt
      have h0 : range.end_ - i = 0 := by omega
      simp [sum_over_loop_count, hlt, rangeSum_empty hle, Nat.mod_eq_of_lt hacc, h0]

theorem sum_over_loop_count_agrees (fuel : Nat) (range : Range) :
    ∀ (i acc iterations : Nat),
      (sum_over_loop_count fuel range i acc iterations).map (fun p => p.2.2)
        = (sum_over_loop fuel range i acc).map (fun p => p.1) := by
  induction fuel with
  | zero =>
    intro i acc iterations
    by_cases hlt : i < range.end_
    · simp [sum_over_loop_count, sum_over_loop, hlt]
    · simp [sum_over_loop_count, sum_over_loop, hlt]
  | succ fuel ih =>
    intro i acc iterations
    by_cases hlt : i < range.end_
    · rw [sum_over_loop_count, sum_over_loop, if_pos hlt, if_pos hlt]
      exact ih _ _ _
    · simp [sum_over_loop_count, sum_over_loop, hlt]

/-- C11: the two schemes are equivalent: for `1 ≤ N ≤ 2^63 - 1` and a worker
count `n_cpus ≥ 1`, `single_thread`, which runs one worker on `[0, N+1)`, and
`cpu_share`, which runs one worker on each of the `n_cpus` subintervals of
`[1, N+1)`, both return, and return the same total, when `total` starts at 0. -/
theorem C11_schemes_agree (N n_cpus : Nat) (_hN1 : 1 ≤ N) (hN : N ≤ 9223372036854775807)
    (hn : 1 ≤ n_cpus) :
    single_thread 0 N = run_workers 0 [{ begin := 0, end_ := N + 1 }]
      ∧ cpu_share n_cpus 0 N
          = run_workers 0
              ((List.range n_cpus).map
                (fun i => subinterval { begin := 1, end_ := N + 1 } n_cpus i))
      ∧ single_thread 0 N = cpu_share n_cpus 0 N
      ∧ ∃ total : Nat, single_thread 0 N = some total ∧ cpu_share n_cpus 0 N = some total := by
  have hN1 : N + 1 < U64_MOD := by
    unfold U64_MOD
    omega
  have hs := single_thread_eq 0 N hN1
  have hc := cpu_share_eq n_cpus 0 N hn (by decide) hN1
  refine ⟨?_, ?_, ?_, ⟨_, hs, hc⟩⟩
  · rw [single_thread_run_workers, single_thread_range, Nat.mod_eq_of_lt hN1]
  · unfold cpu_share cpu_share_ranges
    simp only [Nat.mod_eq_of_lt hN1]
  · rw [hs, hc]

/-- C11 at `N = 10` with four workers. -/
theorem C11_schemes_agree_witness :
    single_thread 0 10 = run_workers 0 [{ begin := 0, end_ := 10 + 1 }]
      ∧ cpu_share 4 0 10
          = run_workers 0
              ((List.range 4).map (fun i => subinterval { begin := 1, end_ := 10 + 1 } 4 i))
      ∧ single_thread 0 10 = cpu_share 4 0 10
      ∧ ∃ total : Nat, single_thread 0 10 = some total ∧ cpu_share 4 0 10 = some total :=
  C11_schemes_agree 10 4 (by decide) (by decide) (by decide)

/-- C12: the final total does not depend on the order in which the workers
add their partial sums: for every `N` and `n_cpus ≥ 1`, running the workers of
`cpu_share` in any permutation of their spawn order, from any `u64` value of
`total`, returns, and returns the total that the spawn order gives. -/
theorem C12_order_independent (N n_cpus total : Nat) (order : List Range)
    (_hn : 1 ≤ n_cpus) (ht : total < U64_MOD)
    (hperm : List.Perm order (cpu_share_ranges n_cpus N)) :
    run_workers total order = run_workers total (cpu_share_ranges n_cpus N)
      ∧ ∃ final : Nat, run_workers total order = some final := by
  have hend := cpu_share_ranges_end_lt n_cpus N
  have hend2 : ∀ r ∈ order, r.end_ < U64_MOD :=
    fun r hr => hend r (hperm.mem_iff.mp hr)
  have hsum : (order.map (fun r => rangeSum r.begin r.end_)).sum
      = ((cpu_share_ranges n_cpus N).map (fun r => rangeSum r.begin r.end_)).sum :=
    (hperm.map _).sum_eq
  rw [run_workers_eq order total ht hend2, run_workers_eq _ total ht hend, hsum]
  exact ⟨rfl, _, rfl⟩

/-- C12 on the reversed spawn order of four workers for `N = 10`. -/
theorem C12_order_independent_witness :
    run_workers 0 (cpu_share_ranges 4 10).reverse = run_workers 0 (cpu_share_ranges 4 10)
      ∧ ∃ final : Nat, run_workers 0 (cpu_share_ranges 4 10).reverse = some final :=
  C12_order_independent 10 4 0 (cpu_share_ranges 4 10).reverse (by decide) (by decide)
    (List.reverse_perm _)

/-- C13: a worker step changes `total` by exactly its local partial sum: from a
`u64` total `t` on a `u64` range `r`, `sum_over r` returns some `acc` and
`worker` leaves `total = (t + acc) mod 2^64`; consequently, from `total = 0`,
after the workers of a list of ranges have run, `total` is the sum modulo
`2^64` of their partial sums, and the two schemes are such runs. -/
theorem C13_worker_adds_partial_sum (t : Nat) (r : Range) (ranges : List Range)
    (_ht : t < U64_MOD) (hr : r.end_ < U64_MOD) (hranges : ∀ x ∈ ranges, x.end_ < U64_MOD) :
    (∃ acc : Nat, sum_over r = some (acc, r)
        ∧ (worker t r).map (fun p => p.1) = some ((t + acc) % U64_MOD))
      ∧ (∃ accs : List Nat,
          List.Forall₂ (fun x acc => sum_over x = some (acc, x)) ranges accs
            ∧ run_workers 0 ranges = some (accs.sum % U64_MOD))
      ∧ (∀ N : Nat, single_thread 0 N = run_workers 0 [single_thread_range N])
      ∧ (∀ n_cpus N : Nat, cpu_share n_cpus 0 N = run_workers 0 (cpu_share_ranges n_cpus N)) := by
  refine ⟨⟨rangeSum r.begin r.end_ % U64_MOD, sum_over_eq r hr, ?_⟩, ?_, ?_, ?_⟩
  · rw [worker_eq t r hr]
    simp only [Option.map_some', Nat.add_mod_mod]
  · refine ⟨ranges.map (fun x => rangeSum x.begin x.end_ % U64_MOD), ?_, ?_⟩
    · rw [List.forall₂_map_right_iff, List.forall₂_same]
      intro x hx
      exact sum_over_eq x (hranges x hx)
    · rw [run_workers_eq ranges 0 (by decide) hranges, Nat.zero_add]
      have h := list_sum_mod (ranges.map (fun x => rangeSum x.begin x.end_)) U64_MOD
      rw [List.map_map] at h
      simp only [Function.comp_def] at h
      rw [h]
  · intro N
    exact single_thread_run_workers 0 N
  · intro n_cpus N
    rfl

/-- C13 from `total = 5` on `[1, 11)` and on the ranges `[1, 4)`, `[4, 11)`. -/
theorem C13_worker_adds_partial_sum_witness :
    (∃ acc : Nat, sum_over { begin := 1, end_ := 11 } = some (acc, { begin := 1, end_ := 11 })
        ∧ (worker 5 { begin := 1, end_ := 11 }).map (fun p => p.1)
            = some ((5 + acc) % U64_MOD))
      ∧ (∃ accs : List Nat,
          List.Forall₂ (fun x acc => sum_over x = some (acc, x))
              [{ begin := 1, end_ := 4 }, { begin := 4, end_ := 11 }] accs
            ∧ run_workers 0 [{ begin := 1, end_ := 4 }, { begin := 4, end_ := 11 }]
                = some (accs.sum % U64_MOD))
      ∧ (∀ N : Nat, single_thread 0 N = run_workers 0 [single_thread_range N])
      ∧ (∀ n_cpus N : Nat, cpu_share n_cpus 0 N = run_workers 0 (cpu_share_ranges n_cpus N)) :=
  C13_worker_adds_partial_sum 5 { begin := 1, end_ := 11 }
    [{ begin := 1, end_ := 4 }, { begin := 4, end_ := 11 }] (by decide) (by decide) (by decide)

theorem sum_over_loop_done (fuel : Nat) (range : Range) (i acc : Nat)
    (h : range.end_ ≤ i) : sum_over_loop fuel range i acc = some (acc, range) := by
  cases fuel with
  | zero => simp [sum_over_loop, Nat.not_lt.mpr h]
  | succ fuel => simp [sum_over_loop, Nat.not_lt.mpr h]

theorem subinterval_locals (a b n i : Nat) (hab : a ≤ b) (hb : b < U64_MOD) (hi : i < n) :
    subinterval_delta { begin := a, end_ := b } n = (b - a) / n
      ∧ subinterval_remainder { begin := a, end_ := b } n = (b - a) % n
      ∧ (b - a) / n * i + (b - a) / n + (b - a) % n ≤ b - a := by
  have hL : (b + U64_MOD - a) % U64_MOD = b - a := by
    unfold U64_MOD at *
    omega
  have h1 : (b - a) / n * i + (b - a) / n ≤ (b - a) / n * n := by
    have h := Nat.mul_le_mul_left ((b - a) / n) (Nat.succ_le_of_lt hi)
    rwa [Nat.mul_succ] at h
  have h3 : (b - a) / n * n + (b - a) % n = b - a := by
    rw [Nat.mul_comm]
    exact Nat.div_add_mod _ _
  refine ⟨?_, ?_, ?_⟩
  · unfold subinterval_delta
    simp only [hL]
  · unfold subinterval_remainder
    simp only [hL]
  · generalize (b - a) / n * i = di at *
    generalize (b - a) / n * n = dn at *
    generalize (b - a) / n = d at *
    generalize (b - a) % n = r at *
    omega

/-- C14 (counterexample): the first range that `cpu_share` hands out for
`N = 10` on four CPUs is `[1, 3)`; when its worker has finished the object holds
`begin = 0`, not 1. -/
theorem C14_worker_overwrites_begin :
    (cpu_share_ranges 4 10).head? = some { begin := 1, end_ := 3 }
      ∧ worker 0 { begin := 1, end_ := 3 } = some (3, { begin := 0, end_ := 3 })
      ∧ ({ begin := 0, end_ := 3 } : Range) ≠ { begin := 1, end_ := 3 } := by
  decide

/-- C14 (amended): a worker does not change the `Range` while it sums it and
never changes `end`; after it has added its partial sum it stores its exit
status 0 in the first four bytes of the object, so that `begin` is left with its
low 32 bits cleared, and the `Range` holds its old values exactly when `begin`
is a multiple of `2^32`. -/
theorem C14_worker_range_after (t : Nat) (r : Range) (hr : r.end_ < U64_MOD) :
    (∃ acc : Nat, sum_over r = some (acc, r))
      ∧ ∃ (total : Nat) (after : Range), worker t r = some (total, after)
          ∧ after.end_ = r.end_
          ∧ after.begin = r.begin - r.begin % 4294967296
          ∧ (after = r ↔ r.begin % 4294967296 = 0) := by
  refine ⟨⟨_, sum_over_eq r hr⟩, _, _, worker_eq t r hr, rfl, rfl, ?_⟩
  have hmod : r.begin % 4294967296 ≤ r.begin := Nat.mod_le _ _
  constructor
  · intro h
    have hb : r.begin - r.begin % 4294967296 = r.begin := congrArg Range.begin h
    omega
  · intro h
    cases r with
    | mk b e =>
      simp only [Range.mk.injEq, and_true] at *
      omega

/-- C14 (amended) on `[4294967296, 4294967299)`, which the worker leaves as it
was. -/
theorem C14_worker_range_after_witness :
    (∃ acc : Nat, sum_over { begin := 4294967296, end_ := 4294967299 }
        = some (acc, { begin := 4294967296, end_ := 4294967299 }))
      ∧ ∃ (total : Nat) (after : Range),
          worker 0 { begin := 4294967296, end_ := 4294967299 } = some (total, after)
          ∧ after.end_ = 4294967299
          ∧ after.begin = 4294967296 - 4294967296 % 4294967296
          ∧ (after = { begin := 4294967296, end_ := 4294967299 }
              ↔ 4294967296 % 4294967296 = 0) :=
  C14_worker_range_after 0 { begin := 4294967296, end_ := 4294967299 } (by decide)

/-- C15: when the partition count exceeds the length of the interval (`a ≤ b`,
`n ≥ 1`, `n > b - a`), one of the `n` subintervals is empty (`begin = end`), and
`sum_over` of a range with `begin = end` returns 0. -/
theorem C15_empty_partitions (a b n : Nat) (hab : a ≤ b) (hb : b < U64_MOD) (hn : 1 ≤ n)
    (hgt : b - a < n) :
    (∃ i, i < n ∧ (subinterval { begin := a, end_ := b } n i).begin
        = (subinterval { begin := a, end_ := b } n i).end_)
      ∧ ∀ r : Range, r.begin = r.end_ → sum_over r = some (0, r) := by
  constructor
  · refine ⟨0, by omega, ?_⟩
    rw [subinterval_eq a b n 0 hab hb (by omega), Nat.div_eq_of_lt hgt]
    by_cases h1 : 0 + 1 = n
    · have hlen : b - a = 0 := by omega
      simp only [if_pos h1, hlen, Nat.zero_mod, Nat.mul_zero, Nat.add_zero]
    · simp only [if_neg h1, Nat.mul_zero, Nat.add_zero]
  · intro r hr
    unfold sum_over
    exact sum_over_loop_done U64_MOD r r.begin 0 (Nat.le_of_eq hr.symm)

/-- C15 on `[1, 4)` cut in five. -/
theorem C15_empty_partitions_witness :
    (∃ i, i < 5 ∧ (subinterval { begin := 1, end_ := 4 } 5 i).begin
        = (subinterval { begin := 1, end_ := 4 } 5 i).end_)
      ∧ ∀ r : Range, r.begin = r.end_ → sum_over r = some (0, r) :=
  C15_empty_partitions 1 4 5 (by decide) (by decide) (by decide) (by decide)

/-- C16: `subinterval` keeps `begin ≤ end` and never wraps: for a `u64` interval
with `begin ≤ end`, `n ≥ 1` and `0 ≤ i < n`, none of `delta * i`,
`interval.begin + delta * i` and `out.begin + delta + remainder` exceeds
`2^64 - 1`, and `interval.begin ≤ out.begin ≤ out.end ≤ interval.end`; and the
intervals built by `single_thread` and `cpu_share` have `begin ≤ end` for every
`N` with `1 ≤ N ≤ 2^63 - 1`. -/
theorem C16_subinterval_no_wraparound (a b n i : Nat) (hab : a ≤ b) (hb : b < U64_MOD)
    (_hn : 1 ≤ n) (hi : i < n) :
    subinterval_delta { begin := a, end_ := b } n * i < U64_MOD
      ∧ a + subinterval_delta { begin := a, end_ := b } n * i < U64_MOD
      ∧ (subinterval { begin := a, end_ := b } n i).begin
          + subinterval_delta { begin := a, end_ := b } n
          + subinterval_remainder { begin := a, end_ := b } n < U64_MOD
      ∧ a ≤ (subinterval { begin := a, end_ := b } n i).begin
      ∧ (subinterval { begin := a, end_ := b } n i).begin
          ≤ (subinterval { begin := a, end_ := b } n i).end_
      ∧ (subinterval { begin := a, end_ := b } n i).end_ ≤ b
      ∧ ∀ N : Nat, 1 ≤ N → N ≤ 9223372036854775807 →
          (single_thread_range N).begin ≤ (single_thread_range N).end_
            ∧ (single_thread_range N).end_ = N + 1
            ∧ (cpu_share_interval N).begin ≤ (cpu_share_interval N).end_
            ∧ (cpu_share_interval N).end_ = N + 1 := by
  obtain ⟨hd, hrem, hsum⟩ := subinterval_locals a b n i hab hb hi
  rw [hd, hrem, subinterval_begin a b n i hab hb hi]
  refine ⟨?_, ?_, ?_, Nat.le_add_right _ _, ?_, subinterval_end_le a b n i hab hb hi, ?_⟩
  · generalize (b - a) / n * i = di at *
    omega
  · generalize (b - a) / n * i = di at *
    omega
  · generalize (b - a) / n * i = di at *
    generalize (b - a) / n = d at *
    generalize (b - a) % n = r at *
    omega
  · have h := subinterval_begin_le_end a b n i hab hb hi
    rw [subinterval_begin a b n i hab hb hi] at h
    exact h
  · intro N h1 h2
    have hN : (N + 1) % U64_MOD = N + 1 := Nat.mod_eq_of_lt (by unfold U64_MOD; omega)
    simp only [single_thread_range, cpu_share_interval, hN]
    exact ⟨Nat.zero_le _, trivial, Nat.succ_le_succ (Nat.zero_le N), trivial⟩

/-- C16 at the last of five partitions of `[1, 8)`. -/
theorem C16_subinterval_no_wraparound_witness :
    subinterval_delta { begin := 1, end_ := 8 } 5 * 4 < U64_MOD
      ∧ 1 + subinterval_delta { begin := 1, end_ := 8 } 5 * 4 < U64_MOD
      ∧ (subinterval { begin := 1, end_ := 8 } 5 4).begin
          + subinterval_delta { begin := 1, end_ := 8 } 5
          + subinterval_remainder { begin := 1, end_ := 8 } 5 < U64_MOD
      ∧ 1 ≤ (subinterval { begin := 1, end_ := 8 } 5 4).begin
      ∧ (subinterval { begin := 1, end_ := 8 } 5 4).begin
          ≤ (subinterval { begin := 1, end_ := 8 } 5 4).end_
      ∧ (subinterval { begin := 1, end_ := 8 } 5 4).end_ ≤ 8
      ∧ ∀ N : Nat, 1 ≤ N → N ≤ 9223372036854775807 →
          (single_thread_range N).begin ≤ (single_thread_range N).end_
            ∧ (single_thread_range N).end_ = N + 1
            ∧ (cpu_share_interval N).begin ≤ (cpu_share_interval N).end_
            ∧ (cpu_share_interval N).end_ = N + 1 :=
  C16_subinterval_no_wraparound 1 8 5 4 (by decide) (by decide) (by decide) (by decide)

/-- C17: `sum_over` is total: for every pair of `u64` values `begin`, `end`,
also with `end = 2^64 - 1` or `begin > end`, the call returns; the loop stops
after exactly `end - begin` iterations (0 when `begin > end`): that much fuel
is enough and less is not; the counter ends at `begin + (end - begin)`, so it
never wraps; and when `begin ≥ end` the result is 0. -/
theorem C17_sum_over_total (range : Range) (_hb : range.begin < U64_MOD)
    (he : range.end_ < U64_MOD) :
    (∃ acc : Nat, sum_over range = some (acc, range))
      ∧ sum_over_loop (range.end_ - range.begin) range range.begin 0 = sum_over range
      ∧ (∀ fuel : Nat, fuel < range.end_ - range.begin →
          sum_over_loop fuel range range.begin 0 = none)
      ∧ (∃ acc : Nat, sum_over range = some (acc, range)
          ∧ sum_over_loop_count U64_MOD range range.begin 0 0
              = some (range.end_ - range.begin, range.begin + (range.end_ - range.begin), acc))
      ∧ range.begin + (range.end_ - range.begin) < U64_MOD
      ∧ (range.end_ ≤ range.begin → sum_over range = some (0, range)) := by
  refine ⟨⟨_, sum_over_eq range he⟩, ?_, ?_, ⟨_, sum_over_eq range he, ?_⟩, ?_, ?_⟩
  · rw [sum_over_eq range he,
      sum_over_loop_eq _ range range.begin 0 he (Nat.le_refl _) (by decide), Nat.zero_add]
  · intro fuel hfuel
    exact sum_over_loop_none fuel range range.begin 0 he hfuel
  · rw [sum_over_loop_count_eq U64_MOD range range.begin 0 0 he (by omega) (by decide),
      Nat.zero_add, Nat.zero_add]
  · omega
  · intro hle
    unfold sum_over
    exact sum_over_loop_done U64_MOD range range.begin 0 hle

/-- C17 on `[2^64 - 4, 2^64 - 1)`. -/
theorem C17_sum_over_total_witness :
    (∃ acc : Nat, sum_over { begin := 18446744073709551612, end_ := 18446744073709551615 }
        = some (acc, { begin := 18446744073709551612, end_ := 18446744073709551615 }))
      ∧ sum_over_loop (18446744073709551615 - 18446744073709551612)
            { begin := 18446744073709551612, end_ := 18446744073709551615 }
            18446744073709551612 0
          = sum_over { begin := 18446744073709551612, end_ := 18446744073709551615 }
      ∧ (∀ fuel : Nat, fuel < 18446744073709551615 - 18446744073709551612 →
          sum_over_loop fuel { begin := 18446744073709551612, end_ := 18446744073709551615 }
            18446744073709551612 0 = none)
      ∧ (∃ acc : Nat, sum_over { begin := 18446744073709551612, end_ := 18446744073709551615 }
            = some (acc, { begin := 18446744073709551612, end_ := 18446744073709551615 })
          ∧ sum_over_loop_count U64_MOD
                { begin := 18446744073709551612, end_ := 18446744073709551615 }
                18446744073709551612 0 0
              = some (18446744073709551615 - 18446744073709551612,
                  18446744073709551612 + (18446744073709551615 - 18446744073709551612), acc))
      ∧ 18446744073709551612 + (18446744073709551615 - 18446744073709551612) < U64_MOD
      ∧ (18446744073709551615 ≤ 18446744073709551612 →
          sum_over { begin := 18446744073709551612, end_ := 18446744073709551615 }
            = some (0, { begin := 18446744073709551612, end_ := 18446744073709551615 })) :=
  C17_sum_over_total { begin := 18446744073709551612, end_ := 18446744073709551615 }
    (by decide) (by decide)

/-- C18: `get_threading_scheme` decides on the first `--method` or `-m`
argument after `argv[0]`: when that flag is followed by the name of a registry
entry, the scheme of the entry is returned, whatever the later arguments are,
later flags with a missing or unknown value included; there is no error
exit. -/
theorem C18_first_flag_decides (prog flag : String) (pre rest : List String)
    (entry : SchemeEntry)
    (hpre : ∀ x ∈ pre, x ≠ "--method" ∧ x ≠ "-m")
    (hflag : flag = "--method" ∨ flag = "-m")
    (hentry : entry ∈ threading_schemes) :
    get_threading_scheme (prog :: (pre ++ flag :: entry.name :: rest))
        = Except.ok entry.scheme
      ∧ get_threading_scheme (prog :: (pre ++ flag :: entry.name :: rest))
          = get_threading_scheme (prog :: (pre ++ [flag, entry.name])) := by
  have hfind : find_scheme threading_schemes entry.name = some entry.scheme := by
    simp only [threading_schemes, List.mem_cons, List.mem_singleton, List.not_mem_nil,
      or_false] at hentry
    rcases hentry with rfl | rfl
    · rfl
    · rfl
  have hgen : ∀ tail : List String,
      get_threading_scheme (prog :: (pre ++ flag :: entry.name :: tail))
        = Except.ok entry.scheme := by
    intro tail
    unfold get_threading_scheme
    rw [List.drop_one, List.tail_cons, get_threading_scheme_loop_skip pre _ hpre,
      get_threading_scheme_loop_cons, if_pos hflag]
    simp only [hfind]
  exact ⟨hgen rest, by rw [hgen rest, hgen []]⟩

/-- C18 on `sum 10 -m cpus -m bogus --method`. -/
theorem C18_first_flag_decides_witness :
    get_threading_scheme
        ("sum" :: (["10"] ++ "-m" :: "cpus" :: ["-m", "bogus", "--method"]))
        = Except.ok ThreadingScheme.cpu_share
      ∧ get_threading_scheme
          ("sum" :: (["10"] ++ "-m" :: "cpus" :: ["-m", "bogus", "--method"]))
          = get_threading_scheme ("sum" :: (["10"] ++ ["-m", "cpus"])) :=
  C18_first_flag_decides "sum" "-m" ["10"] ["-m", "bogus", "--method"]
    { name := "cpus", scheme := ThreadingScheme.cpu_share } (by decide) (Or.inr rfl) (by decide)

end ConcurrentSummation

